import Mathlib

/-!
Verification development for the Art-Namer batch image-naming application.

The application (a React single-page app) keeps an in-memory list of
`ProcessedImage` records, ingests images from local files or remote URLs,
fans out one naming request per queued item to an external generation
service, and applies the results back to the list.

We embed the relevant program logic shallowly:
* strings are modelled as Lean `String` / `List Char`;
* JavaScript's `String.prototype.trim` and the regex
  `replace(/^["']|["']$/g, '')` are translated explicitly;
* asynchronous control flow is modelled by explicit state traces and,
  where completion order matters, by an event-driven simulation of the
  `for ... await` loop;
* the random/time-composite ids of the program are modelled as abstract
  natural-number ids (the claims depend only on their uniqueness).
-/

/-! ## Characters and elementary string operations -/

/-- The straight double-quote character `"` (code point 34). -/
def doubleQuoteChar : Char := Char.ofNat 34

/-- The straight single-quote character (code point 39). -/
def singleQuoteChar : Char := Char.ofNat 39

/-- Membership of the regex character class `["']` in
`text.replace(/^["']|["']$/g, '')` (src/services/geminiService.ts line 55). -/
def isQuoteChar (c : Char) : Bool := c = doubleQuoteChar || c = singleQuoteChar

/-- Translation of JavaScript `String.prototype.trim()`: drop whitespace
from both ends (used at src/services/geminiService.ts line 52). -/
def jsTrim (s : String) : String :=
  ⟨((s.data.dropWhile Char.isWhitespace).reverse.dropWhile Char.isWhitespace).reverse⟩

/-- Strip one leading character of the class `["']`, if present: the
contribution of the anchored alternative `^["']` of the regex at
src/services/geminiService.ts line 55. -/
def stripLeadingQuote (cs : List Char) : List Char :=
  match cs with
  | [] => []
  | c :: rest => if isQuoteChar c then rest else c :: rest

/-- Strip one trailing character of the class `["']`, if present: the
contribution of the anchored alternative `["']$` of the regex. -/
def stripTrailingQuote (cs : List Char) : List Char :=
  (stripLeadingQuote cs.reverse).reverse

/-- `text.replace(/^["']|["']$/g, '')` (src/services/geminiService.ts
line 55): the global regex removes at most one leading and at most one
trailing quote character, the leading one being consumed first (so a
one-character quote string is consumed by the leading alternative only). -/
def stripQuotes (s : String) : String :=
  ⟨stripTrailingQuote (stripLeadingQuote s.data)⟩

/-- The success path of `generateArtName`
(src/services/geminiService.ts lines 52-55): trim the service-returned
text, then strip the quote layer. -/
def generateArtNameClean (raw : String) : String :=
  stripQuotes (jsTrim raw)

/-- The fixed user-facing failure message thrown by `generateArtName`
(src/services/geminiService.ts line 60). -/
def genFailureMessage : String :=
  "Failed to generate a name. The AI may be experiencing high traffic or the image could not be processed."

/-- `generateArtName` with the external service call abstracted as its
outcome: on a service success the returned text is cleaned, on any
failure the fixed friendly message is thrown
(src/services/geminiService.ts lines 33-62). -/
def generateArtName (serviceOutcome : Except String String) : Except String String :=
  match serviceOutcome with
  | .ok t => .ok (generateArtNameClean t)
  | .error _ => .error genFailureMessage

/-- Wrap a string in one layer of the quote character `q` on both ends. -/
def wrapQuote (q : Char) (s : String) : String :=
  ⟨q :: s.data ++ [q]⟩

/-- The string starts with a quote character. -/
def startsWithQuote (s : String) : Bool :=
  match s.data with
  | [] => false
  | c :: _ => isQuoteChar c

/-- The string ends with a quote character. -/
def endsWithQuote (s : String) : Bool :=
  match s.data.reverse with
  | [] => false
  | c :: _ => isQuoteChar c

/-! ## Lemmas about the quote-stripping step -/

theorem stripLeadingQuote_eq_self (cs : List Char)
    (h : startsWithQuote ⟨cs⟩ = false) : stripLeadingQuote cs = cs := by
  cases cs with
  | nil => rfl
  | cons c rest =>
    have hc : isQuoteChar c = false := h
    simp [stripLeadingQuote, hc]

theorem stripTrailingQuote_eq_self (cs : List Char)
    (h : endsWithQuote ⟨cs⟩ = false) : stripTrailingQuote cs = cs := by
  rw [stripTrailingQuote, stripLeadingQuote_eq_self cs.reverse h, List.reverse_reverse]

theorem stripQuotes_eq_self (t : String)
    (h1 : startsWithQuote t = false) (h2 : endsWithQuote t = false) :
    stripQuotes t = t := by
  cases t with
  | mk data =>
    show (⟨stripTrailingQuote (stripLeadingQuote data)⟩ : String) = ⟨data⟩
    rw [stripLeadingQuote_eq_self data h1, stripTrailingQuote_eq_self data h2]

theorem stripQuotes_wrap2 (c d : Char) (cs : List Char)
    (hc : isQuoteChar c = true) (hd : isQuoteChar d = true) :
    stripQuotes ⟨c :: cs ++ [d]⟩ = ⟨cs⟩ := by
  show (⟨stripTrailingQuote (stripLeadingQuote (c :: cs ++ [d]))⟩ : String) = ⟨cs⟩
  have h1 : stripLeadingQuote (c :: cs ++ [d]) = cs ++ [d] := by
    simp [stripLeadingQuote, hc]
  have h2 : (cs ++ [d]).reverse = d :: cs.reverse := by simp
  have h3 : stripLeadingQuote (d :: cs.reverse) = cs.reverse := by
    simp [stripLeadingQuote, hd]
  rw [h1, stripTrailingQuote, h2, h3, List.reverse_reverse]

theorem stripQuotes_wrapQuote (q : Char) (s : String) (hq : isQuoteChar q = true) :
    stripQuotes (wrapQuote q s) = s :=
  stripQuotes_wrap2 q q s.data hq hq

/-- C6: a service-returned text that trims to a string wrapped in matching
straight quotes is cleaned to the inner string (a single quote layer
stripped); a trimmed text with no leading and no trailing quote is stored
unchanged, so the stripping step is idempotent on already-unquoted input. -/
theorem c6_quote_round_trip (raw : String) (q : Char) (s t : String)
    (hq : isQuoteChar q = true)
    (hraw : jsTrim raw = wrapQuote q s)
    (ht1 : startsWithQuote t = false) (ht2 : endsWithQuote t = false) :
    generateArtNameClean raw = s ∧ stripQuotes t = t ∧
      stripQuotes (stripQuotes t) = stripQuotes t := by
  have h1 : generateArtNameClean raw = s := by
    rw [generateArtNameClean, hraw, stripQuotes_wrapQuote q s hq]
  have h2 : stripQuotes t = t := stripQuotes_eq_self t ht1 ht2
  exact ⟨h1, h2, by rw [h2, h2]⟩

/-- Witness for C6 at the concrete input `  "Sunset"  `. -/
theorem c6_quote_round_trip_witness :
    generateArtNameClean "  \"Sunset\"  " = "Sunset" ∧
      stripQuotes "Sunset" = "Sunset" ∧
      stripQuotes (stripQuotes "Sunset") = stripQuotes "Sunset" :=
  c6_quote_round_trip "  \"Sunset\"  " doubleQuoteChar "Sunset" "Sunset"
    (by decide) (by decide) (by decide) (by decide)

/-- C10: the quote stripping acts independently on each end: one leading
and one trailing quote character are removed even when they do not match,
and a quote on only one end is removed as well. -/
theorem c10_quote_strip_independent_ends (c d : Char) (s : String)
    (hc : isQuoteChar c = true) (hd : isQuoteChar d = true)
    (hs1 : startsWithQuote s = false) (hs2 : endsWithQuote s = false) :
    stripQuotes ⟨c :: s.data ++ [d]⟩ = s ∧
      stripQuotes ⟨s.data ++ [d]⟩ = s ∧
      stripQuotes ⟨c :: s.data⟩ = s := by
  refine ⟨stripQuotes_wrap2 c d s.data hc hd, ?_, ?_⟩
  · cases hdat : s.data with
    | nil =>
      have hs : s = ⟨[]⟩ := by cases s; simp_all
      rw [hs]
      show (⟨stripTrailingQuote (stripLeadingQuote [d])⟩ : String) = ⟨[]⟩
      simp [stripLeadingQuote, stripTrailingQuote, hd]
    | cons a as =>
      have ha : isQuoteChar a = false := by
        have := hs1
        rw [startsWithQuote, hdat] at this
        exact this
      show (⟨stripTrailingQuote (stripLeadingQuote (a :: as ++ [d]))⟩ : String) = s
      have h1 : stripLeadingQuote (a :: as ++ [d]) = a :: as ++ [d] := by
        simp [stripLeadingQuote, ha]
      have h2 : (a :: as ++ [d]).reverse = d :: (a :: as).reverse := by simp
      have h3 : stripLeadingQuote (d :: (a :: as).reverse) = (a :: as).reverse := by
        simp [stripLeadingQuote, hd]
      rw [h1, stripTrailingQuote, h2, h3, List.reverse_reverse]
      cases s; simp_all
  · show (⟨stripTrailingQuote (stripLeadingQuote (c :: s.data))⟩ : String) = s
    have h1 : stripLeadingQuote (c :: s.data) = s.data := by
      simp [stripLeadingQuote, hc]
    rw [h1, stripTrailingQuote_eq_self s.data hs2]

/-- Witness for C10 at the concrete inputs of the claim:
`'Sunset"` and `Sunset"` and `'Sunset` all clean to `Sunset`. -/
theorem c10_quote_strip_independent_ends_witness :
    stripQuotes "'Sunset\"" = "Sunset" ∧
      stripQuotes "Sunset\"" = "Sunset" ∧
      stripQuotes "'Sunset" = "Sunset" :=
  c10_quote_strip_independent_ends singleQuoteChar doubleQuoteChar "Sunset"
    (by decide) (by decide) (by decide) (by decide)

/-! ## Display name derivation for remote URLs

`handleFetchFromUrls` (src/unnamed/part_000 line 123) derives the display
name as

  `url.substring(url.lastIndexOf('/') + 1).split('?')[0] || 'image-from-url'`

i.e. it first cuts at the last `/` of the FULL url (query string included)
and only then truncates at the first `?`. -/

/-- Everything after the last `/`; the whole string when no `/` occurs
(`substring(lastIndexOf('/') + 1)`, with `lastIndexOf` returning -1). -/
def afterLastSlash (cs : List Char) : List Char :=
  (cs.reverse.takeWhile (fun c => !(c == '/'))).reverse

/-- The part before the first `?`; the whole string when no `?` occurs
(JavaScript `split('?')[0]`). -/
def beforeFirstQuery (cs : List Char) : List Char :=
  cs.takeWhile (fun c => !(c == '?'))

/-- The display name computed at src/unnamed/part_000 line 123, with the
JavaScript `||` default for the empty (falsy) string. -/
def fileNameFromUrl (url : String) : String :=
  let base := beforeFirstQuery (afterLastSlash url.data)
  if base = [] then "image-from-url" else ⟨base⟩

/-- The display name as the spec words it: the URL's last path segment
(the query string stripped first), defaulting to the fixed placeholder
when that segment is empty. -/
def specLastPathSegmentName (url : String) : String :=
  let seg := afterLastSlash (beforeFirstQuery url.data)
  if seg = [] then "image-from-url" else ⟨seg⟩

theorem takeWhile_append_of_all {α} (p : α → Bool) (l₁ l₂ : List α)
    (h : ∀ a ∈ l₁, p a = true) :
    (l₁ ++ l₂).takeWhile p = l₁ ++ l₂.takeWhile p := by
  induction l₁ with
  | nil => simp
  | cons a l ih =>
    have ha : p a = true := h a (by simp)
    simp only [List.cons_append, List.takeWhile_cons, ha, if_true]
    rw [ih fun b hb => h b (by simp [hb])]

theorem dropWhile_head_false {α} (p : α → Bool) (l : List α) (c : α) (cs : List α)
    (h : l.dropWhile p = c :: cs) : p c = false := by
  induction l with
  | nil => simp at h
  | cons a l ih =>
    rw [List.dropWhile_cons] at h
    by_cases hp : p a = true
    · rw [if_pos hp] at h
      exact ih h
    · rw [if_neg hp] at h
      cases h
      simpa using hp

theorem mem_takeWhile_bool {α} (p : α → Bool) (l : List α) (x : α)
    (hx : x ∈ l.takeWhile p) : p x = true :=
  List.mem_takeWhile_imp hx

theorem query_slash_name_agree (cs : List Char)
    (h : ('/' : Char) ∉ cs.dropWhile (fun c => !(c == '?'))) :
    beforeFirstQuery (afterLastSlash cs) = afterLastSlash (beforeFirstQuery cs) := by
  have hpq : cs.takeWhile (fun c => !(c == '?')) ++ cs.dropWhile (fun c => !(c == '?')) = cs :=
    List.takeWhile_append_dropWhile _ cs
  have hqmem : ∀ a ∈ (cs.dropWhile (fun c => !(c == '?'))).reverse, (!(a == '/')) = true := by
    intro a ha
    rw [List.mem_reverse] at ha
    have hne : a ≠ '/' := fun hEq => h (hEq ▸ ha)
    simp [hne]
  have hA : afterLastSlash cs =
      afterLastSlash (cs.takeWhile (fun c => !(c == '?'))) ++
        cs.dropWhile (fun c => !(c == '?')) := by
    rw [afterLastSlash, show cs.reverse =
        (cs.dropWhile (fun c => !(c == '?'))).reverse ++
          (cs.takeWhile (fun c => !(c == '?'))).reverse by rw [← List.reverse_append, hpq]]
    rw [takeWhile_append_of_all _ _ _ hqmem]
    rw [List.reverse_append, List.reverse_reverse, afterLastSlash]
  have hpmem : ∀ a ∈ afterLastSlash (cs.takeWhile (fun c => !(c == '?'))),
      (!(a == '?')) = true := by
    intro a ha
    rw [afterLastSlash, List.mem_reverse] at ha
    have ha2 : a ∈ (cs.takeWhile (fun c => !(c == '?'))).reverse :=
      (List.takeWhile_sublist _).subset ha
    rw [List.mem_reverse] at ha2
    exact mem_takeWhile_bool (fun c => !(c == '?')) cs a ha2
  have hqtw : (cs.dropWhile (fun c => !(c == '?'))).takeWhile (fun c => !(c == '?')) = [] := by
    cases hq2 : cs.dropWhile (fun c => !(c == '?')) with
    | nil => rfl
    | cons c rest =>
      have hc := dropWhile_head_false (fun c => !(c == '?')) cs c rest hq2
      simp [List.takeWhile_cons, hc]
  rw [hA, beforeFirstQuery, takeWhile_append_of_all _ _ _ hpmem, hqtw, List.append_nil]
  rfl

/-- C7 amended: the display name for a fetched URL is the substring after
the last `/` of the full URL, truncated at the first `?` (placeholder
when empty); whenever the query part of the URL (from the first `?` on)
contains no `/`, this coincides with the spec's "last path segment with
the query string stripped, placeholder when empty". -/
theorem c7_display_name_amended (url : String)
    (h : ('/' : Char) ∉ url.data.dropWhile (fun c => !(c == '?'))) :
    fileNameFromUrl url = specLastPathSegmentName url := by
  simp only [fileNameFromUrl, specLastPathSegmentName]
  rw [query_slash_name_agree url.data h]

/-- Witness for the amended C7: for `http://example.com/a.png?x=1`
the code's display name and the spec's last-path-segment name agree. -/
theorem c7_display_name_amended_witness :
    fileNameFromUrl "http://example.com/a.png?x=1" =
      specLastPathSegmentName "http://example.com/a.png?x=1" :=
  c7_display_name_amended "http://example.com/a.png?x=1" (by decide)

/-- Counterexample to C7 as stated: for a URL whose query string contains
a `/`, the code's display name is taken from inside the query string
(here `b`), not the URL's last path segment `a.png`. -/
theorem c7_display_name_counterexample :
    fileNameFromUrl "http://example.com/a.png?x=a/b" = "b" ∧
      specLastPathSegmentName "http://example.com/a.png?x=a/b" = "a.png" ∧
      ("b" : String) ≠ "a.png" := by
  refine ⟨by decide, by decide, by decide⟩

/-! ## Data model (src/unnamed/part_000 lines 4-14, geminiService.ts line 10)

Program ids are `Date.now()-Math.random()` composite strings whose only
relied-upon property is uniqueness; they are modelled as natural numbers
drawn from a fresh counter. -/

inductive ImageStatus
  | queued
  | generating
  | completed
  | error
  deriving DecidableEq, Repr

inductive NameStyle
  | artistic
  | descriptive
  | modernEdgy
  deriving DecidableEq, Repr

structure ProcessedImage where
  id : Nat
  base64 : String
  mimeType : String
  name : String
  status : ImageStatus
  suggestedName : Option String
  error : Option String
  deriving DecidableEq, Repr

/-- The component state relevant to the batch pipeline
(src/unnamed/part_000 lines 34-40): the image list, the batch-in-progress
flag `isLoading`, the aggregate error text, the selected style, and the
fresh-id counter modelling id generation. -/
structure AppState where
  images : List ProcessedImage
  isLoading : Bool
  error : String
  nameStyle : NameStyle
  nextId : Nat
  deriving DecidableEq, Repr

/-! ## Local-file ingestion (`processFiles`, src/unnamed/part_000 lines 44-74) -/

/-- Prefix test on character lists (for `file.type.startsWith('image/')`). -/
def startsWithChars : List Char → List Char → Bool
  | [], _ => true
  | _ :: _, [] => false
  | c :: p, d :: s => c == d && startsWithChars p s

/-- One file handle offered to `processFiles`: its name, its declared
media type, and the outcome of its asynchronous `FileReader` decode
(`some base64` on success, `none` when the reader errors). -/
structure FileInput where
  name : String
  fileType : String
  readOutcome : Option String
  deriving DecidableEq, Repr

/-- A successfully decoded file (the value resolved at
src/unnamed/part_000 line 56). -/
structure DecodedFile where
  base64 : String
  mimeType : String
  name : String
  deriving DecidableEq, Repr

/-- The non-image filter of src/unnamed/part_000 lines 48-51: files whose
declared type does not begin with `image/` are dropped (with a warning). -/
def acceptedFiles (files : List FileInput) : List FileInput :=
  files.filter (fun f => startsWithChars "image/".data f.fileType.data)

/-- The per-file read promise (src/unnamed/part_000 lines 52-60): resolve
with the decoded data, or reject with `Failed to read file: <name>`. -/
def readFile (f : FileInput) : Except String DecodedFile :=
  match f.readOutcome with
  | some b => .ok ⟨b, f.fileType, f.name⟩
  | none => .error ("Failed to read file: " ++ f.name)

/-- `Promise.all`: resolves with all values when every promise resolves,
rejects with the first rejection otherwise (completion order modelled as
list order). -/
def promiseAll {α} (rs : List (Except String α)) : Except String (List α) :=
  match rs with
  | [] => .ok []
  | r :: rest =>
    match r with
    | .error e => .error e
    | .ok a => (promiseAll rest).map (a :: ·)

/-- A fresh queued `ProcessedImage` built from a decoded file
(src/unnamed/part_000 lines 65-69). -/
def mkQueuedImage (id : Nat) (d : DecodedFile) : ProcessedImage :=
  { id := id, base64 := d.base64, mimeType := d.mimeType, name := d.name,
    status := .queued, suggestedName := none, error := none }

/-- `processFiles` (src/unnamed/part_000 lines 44-74): clear the error,
await all accepted files' decodes together with `Promise.all`, then either
append all decoded images as queued items, or set the batch error to the
rejection's message. -/
def processFiles (files : List FileInput) (st : AppState) : AppState :=
  match promiseAll ((acceptedFiles files).map readFile) with
  | .ok results =>
    { st with
      error := ""
      images := st.images ++ (results.enum.map fun p => mkQueuedImage (st.nextId + p.1) p.2)
      nextId := st.nextId + results.length }
  | .error e => { st with error := e }

theorem promiseAll_read_error (fs : List FileInput)
    (h : ∃ f ∈ fs, f.readOutcome = none) :
    ∃ e, promiseAll (fs.map readFile) = .error e ∧ e ≠ "" := by
  induction fs with
  | nil => simp at h
  | cons f rest ih =>
    cases hro : f.readOutcome with
    | none =>
      refine ⟨"Failed to read file: " ++ f.name, ?_, ?_⟩
      · simp [promiseAll, readFile, hro]
      · intro hcontra
        have hlen : ("Failed to read file: " ++ f.name).length = String.length "" :=
          congrArg String.length hcontra
        rw [String.length_append] at hlen
        have h21 : String.length "Failed to read file: " = 21 := rfl
        rw [h21] at hlen
        have h0 : String.length "" = 0 := rfl
        rw [h0] at hlen
        omega
    | some b =>
      obtain ⟨g, hg, hgo⟩ := h
      rcases List.mem_cons.mp hg with rfl | hgrest
      · rw [hro] at hgo
        cases hgo
      · obtain ⟨e, he, hne⟩ := ih ⟨g, hgrest, hgo⟩
        refine ⟨e, ?_, hne⟩
        simp only [List.map_cons, promiseAll, readFile, hro, he]
        rfl

/-- C1 amended: in a local-file ingestion action where at least one
accepted file fails to read, the entire action is discarded: no file of
the action (successfully decoded or not) is appended to the image list,
and the failure propagates as a non-empty batch-level error message. -/
theorem c1_failed_read_discards_batch (files : List FileInput) (st : AppState)
    (h : ∃ f ∈ acceptedFiles files, f.readOutcome = none) :
    (processFiles files st).images = st.images ∧ (processFiles files st).error ≠ "" := by
  obtain ⟨e, he, hne⟩ := promiseAll_read_error (acceptedFiles files) h
  rw [processFiles, he]
  exact ⟨rfl, hne⟩

/-- A file that decodes successfully. -/
def fileOkA : FileInput := ⟨"a.png", "image/png", some "QUFBQQ"⟩

/-- A file whose `FileReader` errors. -/
def fileBadB : FileInput := ⟨"b.png", "image/png", none⟩

/-- The initial application state (src/unnamed/part_000 lines 34-40). -/
def initialAppState : AppState :=
  { images := []
    isLoading := false
    error := ""
    nameStyle := .artistic
    nextId := 0 }

/-- Witness for the amended C1 at a concrete two-file action. -/
theorem c1_failed_read_discards_batch_witness :
    (processFiles [fileOkA, fileBadB] initialAppState).images = initialAppState.images ∧
      (processFiles [fileOkA, fileBadB] initialAppState).error ≠ "" :=
  c1_failed_read_discards_batch [fileOkA, fileBadB] initialAppState
    ⟨fileBadB, by decide, by decide⟩

/-- Counterexample to C1 as stated: in an action with one successfully
decoding file `a.png` and one unreadable file `b.png`, the decoded
`a.png` is NOT appended (the image list stays empty) even though its own
read succeeded; only the batch error message is set. -/
theorem c1_counterexample :
    readFile fileOkA = .ok ⟨"QUFBQQ", "image/png", "a.png"⟩ ∧
      (processFiles [fileOkA, fileBadB] initialAppState).images = [] ∧
      (processFiles [fileOkA, fileBadB] initialAppState).error =
        "Failed to read file: b.png" := by
  refine ⟨rfl, ?_, ?_⟩ <;> rfl

/-! ## Generate all (`handleGenerateAllNames`, src/unnamed/part_000 lines 150-174)

The external service call of each item is abstracted by an oracle giving
the i-th initiated call's service outcome; `generateArtName` post-processes
it. The whole invocation is modelled as the sequence of states the
orchestrator's shared state passes through. -/

/-- The queued-item snapshot taken at line 151. -/
def queuedSnapshot (l : List ProcessedImage) : List ProcessedImage :=
  l.filter fun img => img.status == .queued

/-- The per-item arrow of line 157: a queued item flips to generating,
any other item is untouched. -/
def flipItem (img : ProcessedImage) : ProcessedImage :=
  if img.status == .queued then { img with status := .generating } else img

/-- The single list update of line 157: every queued item flips to
generating, all other items are untouched. -/
def flipQueued (l : List ProcessedImage) : List ProcessedImage :=
  l.map flipItem

/-- One Naming Request Client call: the payload of `generateArtName`
(src/unnamed/part_000 line 161). -/
structure GenCall where
  base64 : String
  mimeType : String
  style : NameStyle
  deriving DecidableEq, Repr

/-- The calls issued by one generate-all invocation: one per snapshot
item, carrying that item's own content and the selected style. -/
def generateCalls (st : AppState) : List GenCall :=
  (queuedSnapshot st.images).map fun img => ⟨img.base64, img.mimeType, st.nameStyle⟩

deriving instance DecidableEq for Except

/-- The per-item settlement of lines 159-166: the item's id plus either
the cleaned name or the friendly error message. -/
structure GenResult where
  id : Nat
  outcome : Except String String
  deriving DecidableEq, Repr

/-- Build the result record of lines 162/164 from the service outcome of
one call, routed through `generateArtName`. -/
def mkGenResult (img : ProcessedImage) (serviceOutcome : Except String String) : GenResult :=
  ⟨img.id, generateArtName serviceOutcome⟩

/-- The object-spread update `{ ...img, ...result }` of line 170: a
success sets `status = completed` and the suggested name, a failure sets
`status = error` and the message. -/
def resultUpdate (img : ProcessedImage) (r : GenResult) : ProcessedImage :=
  match r.outcome with
  | .ok n => { img with status := .completed, suggestedName := some n }
  | .error e => { img with status := .error, error := some e }

/-- The per-item arrow of line 170: the item whose id matches the
result's id is rewritten, any other item is mapped to itself. -/
def applyItem (r : GenResult) (img : ProcessedImage) : ProcessedImage :=
  if img.id == r.id then resultUpdate img r else img

/-- The list update of line 170: exactly the items whose id matches the
result's id are rewritten, everything else is mapped to itself. -/
def applyResultList (l : List ProcessedImage) (r : GenResult) : List ProcessedImage :=
  l.map (applyItem r)

/-- The results of one invocation in initiation order: the i-th snapshot
item settled with the i-th oracle outcome. -/
def genResults (st : AppState) (oracle : Nat → Except String String) : List GenResult :=
  (queuedSnapshot st.images).enum.map fun p => mkGenResult p.2 (oracle p.1)

/-- The successive states produced by the application loop of lines
168-171, one state per applied result. -/
def applyStates (s : AppState) : List GenResult → List AppState
  | [] => []
  | r :: rs =>
    applyStates ({ s with images := applyResultList s.images r }) rs |>.cons
      { s with images := applyResultList s.images r }

/-- The state after applying a list of results in order. -/
def applyFinal (s : AppState) (rs : List GenResult) : AppState :=
  rs.foldl (fun t r => { t with images := applyResultList t.images r }) s

/-- The synchronous updates of lines 154-157 merged into one state: the
flag raised, the error cleared, every queued item flipped to generating
in a single list update. -/
def flipState (st : AppState) : AppState :=
  { st with images := flipQueued st.images, isLoading := true, error := "" }

/-- `handleGenerateAllNames` as a state trace: the pre-state, then (when
the snapshot is non-empty) the synchronous update of lines 154-157, then
one state per applied result, then the final state with the flag cleared
(line 173). An empty snapshot returns immediately (line 152). -/
def handleGenerateAllNames (st : AppState) (oracle : Nat → Except String String) :
    List AppState :=
  if queuedSnapshot st.images = [] then [st]
  else
    [st, flipState st] ++ applyStates (flipState st) (genResults st oracle) ++
      [{ applyFinal (flipState st) (genResults st oracle) with isLoading := false }]

theorem applyStates_cons (s : AppState) (r : GenResult) (rs : List GenResult) :
    applyStates s (r :: rs) =
      { s with images := applyResultList s.images r } ::
        applyStates { s with images := applyResultList s.images r } rs := rfl

theorem applyStates_length (rs : List GenResult) :
    ∀ s : AppState, (applyStates s rs).length = rs.length := by
  induction rs with
  | nil => intro s; rfl
  | cons r rest ih =>
    intro s
    rw [applyStates_cons, List.length_cons, ih]
    rfl

theorem applyStates_isLoading (rs : List GenResult) :
    ∀ s t : AppState, t ∈ applyStates s rs → t.isLoading = s.isLoading := by
  induction rs with
  | nil => intro s t ht; cases ht
  | cons r rest ih =>
    intro s t ht
    rw [applyStates_cons] at ht
    rcases List.mem_cons.mp ht with rfl | h2
    · rfl
    · exact ih { s with images := applyResultList s.images r } t h2

theorem applyFinal_cons (s : AppState) (r : GenResult) (rs : List GenResult) :
    applyFinal s (r :: rs) = applyFinal { s with images := applyResultList s.images r } rs := rfl

theorem applyFinal_isLoading (rs : List GenResult) :
    ∀ s : AppState, (applyFinal s rs).isLoading = s.isLoading := by
  induction rs with
  | nil => intro s; rfl
  | cons r rest ih =>
    intro s
    rw [applyFinal_cons, ih]

theorem applyStates_getElem (rs : List GenResult) :
    ∀ (s : AppState) (k : Nat) (t : AppState), (applyStates s rs)[k]? = some t →
      t = applyFinal s (rs.take (k + 1)) := by
  induction rs with
  | nil => intro s k t ht; cases ht
  | cons r rest ih =>
    intro s k t ht
    rw [applyStates_cons] at ht
    cases k with
    | zero =>
      rw [List.getElem?_cons_zero] at ht
      injection ht with hx
      subst hx
      rfl
    | succ j =>
      rw [List.getElem?_cons_succ] at ht
      rw [List.take_succ_cons, applyFinal_cons]
      exact ih _ j t ht

theorem genResults_length (st : AppState) (oracle : Nat → Except String String) :
    (genResults st oracle).length = (queuedSnapshot st.images).length := by
  rw [genResults, List.length_map, List.enum_length]

/-- C2: with N queued items, generate-all first flips all N to generating
in one list update (every queued item becomes generating, others are
untouched), makes exactly N naming-request calls each carrying its own
item's content and the style selected at invocation, applies results one
at a time in initiation order, and the batch flag is true from the start
of the invocation through the application of the last result, then false
in the final state. -/
theorem c2_generate_all (st : AppState) (oracle : Nat → Except String String)
    (h : queuedSnapshot st.images ≠ []) :
    (generateCalls st).length = (queuedSnapshot st.images).length ∧
    (∀ i : Nat, ∀ img, (queuedSnapshot st.images)[i]? = some img →
      (generateCalls st)[i]? = some ⟨img.base64, img.mimeType, st.nameStyle⟩) ∧
    (∀ i : Nat, ∀ img, st.images[i]? = some img →
      (flipQueued st.images)[i]? =
        some (if img.status == ImageStatus.queued
          then { img with status := ImageStatus.generating } else img)) ∧
    (handleGenerateAllNames st oracle).length = (queuedSnapshot st.images).length + 3 ∧
    (handleGenerateAllNames st oracle)[0]? = some st ∧
    (handleGenerateAllNames st oracle)[1]? = some (flipState st) ∧
    (∀ k : Nat, 1 ≤ k → k ≤ (queuedSnapshot st.images).length + 1 →
      ∀ t, (handleGenerateAllNames st oracle)[k]? = some t → t.isLoading = true) ∧
    (∀ k : Nat, k < (queuedSnapshot st.images).length →
      ∀ t, (handleGenerateAllNames st oracle)[k + 2]? = some t →
        t = applyFinal (flipState st) ((genResults st oracle).take (k + 1))) ∧
    (handleGenerateAllNames st oracle)[(queuedSnapshot st.images).length + 2]? =
      some { applyFinal (flipState st) (genResults st oracle) with isLoading := false } := by
  have hlen : (applyStates (flipState st) (genResults st oracle)).length =
      (queuedSnapshot st.images).length := by
    rw [applyStates_length, genResults_length]
  have htr : handleGenerateAllNames st oracle =
      st :: flipState st :: (applyStates (flipState st) (genResults st oracle) ++
        [{ applyFinal (flipState st) (genResults st oracle) with isLoading := false }]) := by
    rw [handleGenerateAllNames, if_neg h]
    simp
  refine ⟨?_, ?_, ?_, ?_, ?_, ?_, ?_, ?_, ?_⟩
  · rw [generateCalls, List.length_map]
  · intro i img hi
    rw [generateCalls, List.getElem?_map, hi, Option.map_some']
  · intro i img hi
    rw [flipQueued, List.getElem?_map, hi, Option.map_some', flipItem]
  · rw [htr]
    simp [hlen]
  · rw [htr]; rfl
  · rw [htr]; simp
  · intro k hk1 hk2 t ht
    rw [htr] at ht
    cases k with
    | zero => omega
    | succ k1 =>
      rw [List.getElem?_cons_succ] at ht
      cases k1 with
      | zero =>
        rw [List.getElem?_cons_zero] at ht
        injection ht with hx
        subst hx
        rfl
      | succ j =>
        rw [List.getElem?_cons_succ] at ht
        have hj : j < (applyStates (flipState st) (genResults st oracle)).length := by
          omega
        rw [List.getElem?_append_left hj] at ht
        have hmem : t ∈ applyStates (flipState st) (genResults st oracle) :=
          List.getElem?_mem ht
        rw [applyStates_isLoading _ _ t hmem]
        rfl
  · intro k hk t ht
    rw [htr] at ht
    rw [List.getElem?_cons_succ, List.getElem?_cons_succ] at ht
    have hk2 : k < (applyStates (flipState st) (genResults st oracle)).length := by
      omega
    rw [List.getElem?_append_left hk2] at ht
    exact applyStates_getElem _ _ k t ht
  · rw [htr]
    rw [List.getElem?_cons_succ, List.getElem?_cons_succ]
    rw [List.getElem?_append_right (by omega)]
    rw [hlen]
    simp

/-- A queued item used in concrete witnesses. -/
def itemQ1 : ProcessedImage :=
  ⟨1, "B64A", "image/png", "a.png", .queued, none, none⟩

/-- A second queued item used in concrete witnesses. -/
def itemQ2 : ProcessedImage :=
  ⟨2, "B64B", "image/jpeg", "b.jpg", .queued, none, none⟩

/-- A completed item used in concrete witnesses. -/
def itemDone : ProcessedImage :=
  ⟨3, "B64C", "image/png", "c.png", .completed, some "Dawn", none⟩

/-- A concrete state with two queued items and one completed item. -/
def stateTwoQueued : AppState :=
  { images := [itemQ1, itemQ2, itemDone]
    isLoading := false
    error := ""
    nameStyle := .descriptive
    nextId := 4 }

/-- A concrete service oracle that always succeeds with `X`. -/
def oracleOkX : Nat → Except String String := fun _ => .ok "X"

/-- Witness for C2 at a concrete two-queued-item state. -/
theorem c2_generate_all_witness :
    (generateCalls stateTwoQueued).length = (queuedSnapshot stateTwoQueued.images).length ∧
    (∀ i : Nat, ∀ img, (queuedSnapshot stateTwoQueued.images)[i]? = some img →
      (generateCalls stateTwoQueued)[i]? = some ⟨img.base64, img.mimeType, stateTwoQueued.nameStyle⟩) ∧
    (∀ i : Nat, ∀ img, stateTwoQueued.images[i]? = some img →
      (flipQueued stateTwoQueued.images)[i]? =
        some (if img.status == ImageStatus.queued
          then { img with status := ImageStatus.generating } else img)) ∧
    (handleGenerateAllNames stateTwoQueued oracleOkX).length =
      (queuedSnapshot stateTwoQueued.images).length + 3 ∧
    (handleGenerateAllNames stateTwoQueued oracleOkX)[0]? = some stateTwoQueued ∧
    (handleGenerateAllNames stateTwoQueued oracleOkX)[1]? = some (flipState stateTwoQueued) ∧
    (∀ k : Nat, 1 ≤ k → k ≤ (queuedSnapshot stateTwoQueued.images).length + 1 →
      ∀ t, (handleGenerateAllNames stateTwoQueued oracleOkX)[k]? = some t →
        t.isLoading = true) ∧
    (∀ k : Nat, k < (queuedSnapshot stateTwoQueued.images).length →
      ∀ t, (handleGenerateAllNames stateTwoQueued oracleOkX)[k + 2]? = some t →
        t = applyFinal (flipState stateTwoQueued)
          ((genResults stateTwoQueued oracleOkX).take (k + 1))) ∧
    (handleGenerateAllNames stateTwoQueued oracleOkX)[(queuedSnapshot stateTwoQueued.images).length + 2]? =
      some { applyFinal (flipState stateTwoQueued) (genResults stateTwoQueued oracleOkX) with
        isLoading := false } :=
  c2_generate_all stateTwoQueued oracleOkX (by decide)

/-- C8: invoking generate-all with no queued item is a no-op: the trace
is just the unchanged pre-state (image list, flag and error text all as
before) and no naming-request call is made. -/
theorem c8_generate_all_no_queued (st : AppState) (oracle : Nat → Except String String)
    (h : ∀ img ∈ st.images, img.status ≠ .queued) :
    handleGenerateAllNames st oracle = [st] ∧ generateCalls st = [] := by
  have hsnap : queuedSnapshot st.images = [] := by
    rw [queuedSnapshot]
    rw [List.filter_eq_nil_iff]
    intro a ha
    simp only [beq_iff_eq]
    exact h a ha
  constructor
  · rw [handleGenerateAllNames, if_pos hsnap]
  · rw [generateCalls, hsnap]
    rfl

/-- A concrete state with one completed item and nothing queued. -/
def stateNoQueued : AppState :=
  { images := [itemDone]
    isLoading := false
    error := ""
    nameStyle := .artistic
    nextId := 4 }

/-- Witness for C8 at a concrete state with no queued item. -/
theorem c8_generate_all_no_queued_witness :
    handleGenerateAllNames stateNoQueued oracleOkX = [stateNoQueued] ∧
      generateCalls stateNoQueued = [] :=
  c8_generate_all_no_queued stateNoQueued oracleOkX (by decide)

theorem map_id_of_all {α} (f : α → α) (l : List α) (h : ∀ a ∈ l, f a = a) :
    l.map f = l := by
  induction l with
  | nil => rfl
  | cons a rest ih =>
    rw [List.map_cons, h a (by simp), ih fun b hb => h b (by simp [hb])]

theorem nodup_getElem_inj {α} (l : List α) (hl : l.Nodup) (i j : Nat) (x : α)
    (hi : l[i]? = some x) (hj : l[j]? = some x) : i = j := by
  obtain ⟨hi1, hi2⟩ := List.getElem?_eq_some_iff.mp hi
  obtain ⟨hj1, hj2⟩ := List.getElem?_eq_some_iff.mp hj
  exact List.Nodup.getElem_inj_iff hl |>.mp (hi2.trans hj2.symm)

/-- C9: applying one generation result modifies at most the single item
whose id matches (ids being unique): every non-matching item keeps its
exact position and fields, the list length is unchanged, a matching item
is rewritten by the result update in place, and when no item carries the
result's id the list is left entirely unchanged (the late result is
silently discarded, never re-added). -/
theorem c9_apply_result_frame (l : List ProcessedImage) (r : GenResult)
    (hnodup : (l.map ProcessedImage.id).Nodup) :
    (applyResultList l r).length = l.length ∧
    (∀ i : Nat, ∀ img, l[i]? = some img → img.id ≠ r.id →
      (applyResultList l r)[i]? = some img) ∧
    (∀ i : Nat, ∀ img, l[i]? = some img → img.id = r.id →
      (applyResultList l r)[i]? = some (resultUpdate img r)) ∧
    ((∀ img ∈ l, img.id ≠ r.id) → applyResultList l r = l) ∧
    (∀ i j : Nat, ∀ a b, l[i]? = some a → l[j]? = some b →
      a.id = r.id → b.id = r.id → i = j) := by
  refine ⟨?_, ?_, ?_, ?_, ?_⟩
  · rw [applyResultList, List.length_map]
  · intro i img hi hne
    rw [applyResultList, List.getElem?_map, hi, Option.map_some']
    have hb : (img.id == r.id) = false := by
      simp [hne]
    simp [applyItem, hb]
  · intro i img hi heq
    rw [applyResultList, List.getElem?_map, hi, Option.map_some']
    have hb : (img.id == r.id) = true := by
      simp [heq]
    simp [applyItem, hb]
  · intro hall
    rw [applyResultList]
    apply map_id_of_all
    intro a ha
    have hb : (a.id == r.id) = false := by
      simp [hall a ha]
    simp [applyItem, hb]
  · intro i j a b hi hj ha hb
    have hia : (l.map ProcessedImage.id)[i]? = some r.id := by
      rw [List.getElem?_map, hi, Option.map_some', ha]
    have hjb : (l.map ProcessedImage.id)[j]? = some r.id := by
      rw [List.getElem?_map, hj, Option.map_some', hb]
    exact nodup_getElem_inj _ hnodup i j r.id hia hjb

/-- Witness for C9: a concrete result targeting the second of three items
(ids unique) with a successful outcome. -/
theorem c9_apply_result_frame_witness :
    (applyResultList [itemQ1, itemQ2, itemDone] ⟨2, .ok "Dusk"⟩).length =
      [itemQ1, itemQ2, itemDone].length ∧
    (∀ i : Nat, ∀ img, [itemQ1, itemQ2, itemDone][i]? = some img →
      img.id ≠ (2 : Nat) →
      (applyResultList [itemQ1, itemQ2, itemDone] ⟨2, .ok "Dusk"⟩)[i]? = some img) ∧
    (∀ i : Nat, ∀ img, [itemQ1, itemQ2, itemDone][i]? = some img →
      img.id = (2 : Nat) →
      (applyResultList [itemQ1, itemQ2, itemDone] ⟨2, .ok "Dusk"⟩)[i]? =
        some (resultUpdate img ⟨2, .ok "Dusk"⟩)) ∧
    ((∀ img ∈ [itemQ1, itemQ2, itemDone], img.id ≠ (2 : Nat)) →
      applyResultList [itemQ1, itemQ2, itemDone] ⟨2, .ok "Dusk"⟩ =
        [itemQ1, itemQ2, itemDone]) ∧
    (∀ i j : Nat, ∀ a b, [itemQ1, itemQ2, itemDone][i]? = some a →
      [itemQ1, itemQ2, itemDone][j]? = some b →
      a.id = (2 : Nat) → b.id = (2 : Nat) → i = j) :=
  c9_apply_result_frame [itemQ1, itemQ2, itemDone] ⟨2, .ok "Dusk"⟩ (by decide)

/-! ## Copy all (`handleCopyAll`, src/unnamed/part_000 lines 182-193) -/

/-- JavaScript truthiness of `img.suggestedName`: an absent or empty
string is falsy (the filter at line 184). -/
def suggTruthy (img : ProcessedImage) : Bool :=
  match img.suggestedName with
  | some s => !(s == "")
  | none => false

/-- The `name: suggestedName` line of line 185. -/
def copyLine (img : ProcessedImage) : String :=
  img.name ++ ": " ++ img.suggestedName.getD ""

/-- JavaScript `Array.prototype.join('\n')`. -/
def joinLines : List String → String
  | [] => ""
  | [a] => a
  | a :: rest => a ++ "\n" ++ joinLines rest

/-- The text assembled at lines 183-186: filter to completed items with a
truthy suggested name, map to lines, join with newlines. -/
def copyAllText (st : AppState) : String :=
  joinLines ((st.images.filter fun img =>
    img.status == ImageStatus.completed && suggTruthy img).map copyLine)

/-- The observable effect of one copy-all action: what is written to the
clipboard (if anything), whether the aggregate copied indicator is set,
and the scheduled auto-clear delay in milliseconds. -/
structure CopyAllEffect where
  clipboard : Option String
  copiedAllSet : Bool
  clearDelayMs : Option Nat
  deriving DecidableEq, Repr

/-- `handleCopyAll` (lines 182-193): when the assembled text is truthy
(non-empty) it is written to the clipboard, the aggregate indicator is
set and its reset is scheduled after 2000 ms; otherwise nothing at all
happens. -/
def handleCopyAll (st : AppState) : CopyAllEffect :=
  if copyAllText st == "" then ⟨none, false, none⟩
  else ⟨some (copyAllText st), true, some 2000⟩

/-- The listing as an independent reference formulation: one line per
completed item with non-empty suggested name, via `filterMap`. -/
def listingLines (l : List ProcessedImage) : List String :=
  l.filterMap fun img =>
    match img.status, img.suggestedName with
    | .completed, some s => if s = "" then none else some (img.name ++ ": " ++ s)
    | _, _ => none

theorem copyAllText_eq_listing (st : AppState) :
    copyAllText st = joinLines (listingLines st.images) := by
  rw [copyAllText, listingLines]
  congr 1
  induction st.images with
  | nil => rfl
  | cons img rest ih =>
    rw [List.filterMap_cons]
    cases hst : img.status with
    | completed =>
      cases hsn : img.suggestedName with
      | none =>
        have hb : (img.status == ImageStatus.completed && suggTruthy img) = false := by
          simp [suggTruthy, hsn]
        rw [List.filter_cons_of_neg (by simp [hb]), ih]
      | some s =>
        by_cases hs : s = ""
        · have hb : (img.status == ImageStatus.completed && suggTruthy img) = false := by
            simp [suggTruthy, hsn, hs]
          rw [List.filter_cons_of_neg (by simp [hb]), ih]
          simp [hst, hs]
        · have hb : (img.status == ImageStatus.completed && suggTruthy img) = true := by
            simp [suggTruthy, hsn, hst, hs]
          rw [List.filter_cons_of_pos (by simp [hb]), List.map_cons, ih]
          simp [hst, hs, copyLine, hsn]
    | queued =>
      have hb : (img.status == ImageStatus.completed && suggTruthy img) = false := by
        simp [hst]
      rw [List.filter_cons_of_neg (by simp [hb]), ih]
    | generating =>
      have hb : (img.status == ImageStatus.completed && suggTruthy img) = false := by
        simp [hst]
      rw [List.filter_cons_of_neg (by simp [hb]), ih]
    | error =>
      have hb : (img.status == ImageStatus.completed && suggTruthy img) = false := by
        simp [hst]
      rw [List.filter_cons_of_neg (by simp [hb]), ih]

theorem listingLines_mem_ne (l : List ProcessedImage) :
    ∀ x ∈ listingLines l, x ≠ "" := by
  intro x hx
  rw [listingLines, List.mem_filterMap] at hx
  obtain ⟨img, hmem, hf⟩ := hx
  cases hst : img.status <;> rw [hst] at hf <;> try cases hf
  case completed =>
    cases hsn : img.suggestedName <;> rw [hsn] at hf
    · cases hf
    case some s =>
      have hf2 : (if s = "" then none else some (img.name ++ ": " ++ s)) = some x := hf
      by_cases hs : s = ""
      · rw [if_pos hs] at hf2
        cases hf2
      · rw [if_neg hs] at hf2
        injection hf2 with hx2
        subst hx2
        intro hc
        have hlen := congrArg String.length hc
        rw [String.length_append, String.length_append] at hlen
        have h2 : String.length ": " = 2 := rfl
        have h0 : String.length "" = 0 := rfl
        rw [h2, h0] at hlen
        omega

theorem joinLines_cons2 (a b : String) (rest : List String) :
    joinLines (a :: b :: rest) = a ++ "\n" ++ joinLines (b :: rest) := rfl

theorem joinLines_ne_empty (ls : List String) (h1 : ls ≠ [])
    (h2 : ∀ x ∈ ls, x ≠ "") : joinLines ls ≠ "" := by
  cases ls with
  | nil => exact absurd rfl h1
  | cons a rest =>
    cases rest with
    | nil => exact h2 a (by simp)
    | cons b rest2 =>
      rw [joinLines_cons2]
      intro hc
      have hlen := congrArg String.length hc
      rw [String.length_append, String.length_append] at hlen
      have hnl : String.length "\n" = 1 := rfl
      have h0 : String.length "" = 0 := rfl
      rw [hnl, h0] at hlen
      omega

/-- C5 amended: copy-all assembles the newline-joined `name: suggestedName`
listing over exactly the completed items whose suggested name is
non-empty, in list order; when that listing is non-empty the text is
written to the clipboard and the aggregate copied indicator is set with a
2000 ms auto-clear, and when it is empty (in particular when the only
completed items carry an empty suggested name) nothing is written and the
indicator is not set. -/
theorem c5_copy_all_amended (st : AppState) :
    copyAllText st = joinLines (listingLines st.images) ∧
    handleCopyAll st =
      (if listingLines st.images = [] then ⟨none, false, none⟩
       else ⟨some (joinLines (listingLines st.images)), true, some 2000⟩) := by
  have hA := copyAllText_eq_listing st
  refine ⟨hA, ?_⟩
  by_cases h : listingLines st.images = []
  · rw [if_pos h, handleCopyAll]
    have hb : (copyAllText st == "") = true := by
      rw [hA, h]
      rfl
    rw [if_pos hb]
  · rw [if_neg h, handleCopyAll]
    have hne : copyAllText st ≠ "" := by
      rw [hA]
      exact joinLines_ne_empty _ h (listingLines_mem_ne _)
    have hb : (copyAllText st == "") = false := by
      simp [hne]
    rw [if_neg (by simp [hb]), hA]

/-- A completed item whose suggested name is the empty string. -/
def itemEmptySugg : ProcessedImage :=
  ⟨5, "B64E", "image/png", "e.png", .completed, some "", none⟩

/-- A concrete state whose only item is completed with an empty
suggested name. -/
def stateEmptySugg : AppState :=
  { images := [itemEmptySugg]
    isLoading := false
    error := ""
    nameStyle := .artistic
    nextId := 6 }

/-- Counterexample to C5 as stated: a completed item with an empty
suggested name is NOT included in the copy-all listing; with such an item
as the only completed one, nothing is written to the clipboard at all and
the aggregate copied indicator is not set. -/
theorem c5_copy_all_counterexample :
    itemEmptySugg.status = .completed ∧
      itemEmptySugg.suggestedName = some "" ∧
      stateEmptySugg.images = [itemEmptySugg] ∧
      handleCopyAll stateEmptySugg = ⟨none, false, none⟩ := by
  refine ⟨rfl, rfl, rfl, ?_⟩
  rfl

/-! ## Initiation-order application under out-of-order completions (C3)

The loop of src/unnamed/part_000 lines 168-171 awaits the promises in the
order they were initiated and performs each `setImages` right after its
awaited promise settles. We simulate the cooperative scheduler: network
completions arrive one at a time in an arbitrary order; whenever the
promise currently awaited (position `next`) is among the resolved ones,
the loop wakes, emits the state update for that position and advances.
The emitted sequence of update positions is proved to be the snapshot
order, whatever the completion order was. -/

structure DrainState where
  next : Nat
  resolved : List Nat
  emitted : List Nat
  deriving DecidableEq, Repr

/-- Run the awaiting loop as far as possible: while the promise at
position `next` has already resolved, emit its update and advance. -/
def drainLoop : Nat → DrainState → DrainState
  | 0, d => d
  | fuel + 1, d =>
    if d.next ∈ d.resolved then
      drainLoop fuel ⟨d.next + 1, d.resolved, d.emitted ++ [d.next]⟩
    else d

/-- One network completion event: promise `i` resolves and the loop runs
as far as it now can. -/
def resolveEvent (bound : Nat) (d : DrainState) (i : Nat) : DrainState :=
  drainLoop (bound + 1) ⟨d.next, i :: d.resolved, d.emitted⟩

/-- The positions of the snapshot, in the order the loop applies their
state updates, when the `bound` promises complete in `completionOrder`. -/
def loopApplyOrder (bound : Nat) (completionOrder : List Nat) : List Nat :=
  (completionOrder.foldl (resolveEvent bound) ⟨0, [], []⟩).emitted

/-- The drain invariant: updates 0..next-1 emitted in order, all of them
resolved, the awaited one unresolved, and resolutions within bound. -/
def DrainInv (bound : Nat) (d : DrainState) : Prop :=
  d.emitted = List.range d.next ∧
  (∀ j, j < d.next → j ∈ d.resolved) ∧
  d.next ∉ d.resolved ∧
  (∀ x ∈ d.resolved, x < bound)

theorem drainLoop_spec (bound : Nat) : ∀ (fuel : Nat) (d : DrainState),
    d.emitted = List.range d.next →
    (∀ j, j < d.next → j ∈ d.resolved) →
    (∀ x ∈ d.resolved, x < bound) →
    bound + 1 ≤ fuel + d.next →
    (drainLoop fuel d).resolved = d.resolved ∧ DrainInv bound (drainLoop fuel d) := by
  intro fuel
  induction fuel with
  | zero =>
    intro d h1 h2 h3 hfuel
    refine ⟨rfl, h1, h2, ?_, h3⟩
    intro hmem
    have := h3 d.next hmem
    omega
  | succ f ih =>
    intro d h1 h2 h3 hfuel
    rw [drainLoop]
    by_cases hmem : d.next ∈ d.resolved
    · rw [if_pos hmem]
      have hlt : d.next < bound := h3 d.next hmem
      have hrec := ih ⟨d.next + 1, d.resolved, d.emitted ++ [d.next]⟩
        (by simp [h1, List.range_succ])
        (by
          intro j hj
          rcases Nat.lt_succ_iff_lt_or_eq.mp hj with hj2 | hj2
          · exact h2 j hj2
          · rw [hj2]; exact hmem)
        h3
        (by simp only; omega)
      exact hrec
    · rw [if_neg hmem]
      exact ⟨rfl, h1, h2, hmem, h3⟩

theorem resolveEvent_spec (bound : Nat) (d : DrainState) (i : Nat)
    (h1 : d.emitted = List.range d.next)
    (h2 : ∀ j, j < d.next → j ∈ d.resolved)
    (h3 : ∀ x ∈ d.resolved, x < bound)
    (hi : i < bound) :
    (resolveEvent bound d i).resolved = i :: d.resolved ∧
      DrainInv bound (resolveEvent bound d i) := by
  apply drainLoop_spec bound (bound + 1) ⟨d.next, i :: d.resolved, d.emitted⟩ h1
  · intro j hj
    exact List.mem_cons_of_mem i (h2 j hj)
  · intro x hx
    rcases List.mem_cons.mp hx with rfl | hx2
    · exact hi
    · exact h3 x hx2
  · omega

theorem loopApply_invariant (bound : Nat) : ∀ (events : List Nat) (d : DrainState),
    DrainInv bound d → (∀ x ∈ events, x < bound) →
    (events.foldl (resolveEvent bound) d).resolved = events.reverse ++ d.resolved ∧
      DrainInv bound (events.foldl (resolveEvent bound) d) := by
  intro events
  induction events with
  | nil =>
    intro d hd _
    exact ⟨by simp, hd⟩
  | cons i rest ih =>
    intro d hd hev
    obtain ⟨h1, h2, h3, h4⟩ := hd
    have hstep := resolveEvent_spec bound d i h1 h2 h4 (hev i (by simp))
    have hrest := ih (resolveEvent bound d i) hstep.2
      (fun x hx => hev x (by simp [hx]))
    rw [List.foldl_cons]
    refine ⟨?_, hrest.2⟩
    rw [hrest.1, hstep.1]
    simp

/-- C3: within one generate-all invocation the per-item state updates are
applied in snapshot (initiation) order: whatever permutation of the N
initiated promises the network completion order is, the loop's emitted
update sequence is exactly positions 0..N-1 in order, so for any two
snapshot positions i before j, item i's update is applied strictly
before item j's. -/
theorem c3_updates_in_initiation_order (N : Nat) (co : List Nat)
    (hperm : co.Perm (List.range N)) :
    loopApplyOrder N co = List.range N ∧
    ∀ i j : Nat, i < j → j < N →
      ∃ ki kj : Nat, ki < kj ∧ (loopApplyOrder N co)[ki]? = some i ∧
        (loopApplyOrder N co)[kj]? = some j := by
  have hlt : ∀ x ∈ co, x < N := fun x hx => List.mem_range.mp (hperm.mem_iff.mp hx)
  have hinv0 : DrainInv N ⟨0, [], []⟩ := by
    refine ⟨rfl, ?_, by simp, by simp⟩
    intro j hj
    simp at hj
  obtain ⟨hres, hinv⟩ := loopApply_invariant N co ⟨0, [], []⟩ hinv0 hlt
  obtain ⟨h1, h2, h3, h4⟩ := hinv
  have hmemiff : ∀ x, x ∈ (co.foldl (resolveEvent N) ⟨0, [], []⟩).resolved ↔ x ∈ co := by
    intro x
    rw [hres]
    simp
  have hnext : (co.foldl (resolveEvent N) ⟨0, [], []⟩).next = N := by
    rcases Nat.lt_trichotomy (co.foldl (resolveEvent N) ⟨0, [], []⟩).next N with hc | hc | hc
    · exfalso
      apply h3
      rw [hmemiff]
      rw [hperm.mem_iff]
      exact List.mem_range.mpr hc
    · exact hc
    · exfalso
      have hNmem := h2 N hc
      have := h4 N hNmem
      omega
  have hEq : loopApplyOrder N co = List.range N := by
    rw [loopApplyOrder, h1, hnext]
  refine ⟨hEq, ?_⟩
  intro i j hij hj
  refine ⟨i, j, hij, ?_, ?_⟩
  · rw [hEq, List.getElem?_range (by omega)]
  · rw [hEq, List.getElem?_range hj]

/-- Witness for C3: three promises completing in the order 2, 0, 1 still
have their updates applied in order 0, 1, 2. -/
theorem c3_updates_in_initiation_order_witness :
    loopApplyOrder 3 [2, 0, 1] = List.range 3 ∧
    ∀ i j : Nat, i < j → j < 3 →
      ∃ ki kj : Nat, ki < kj ∧ (loopApplyOrder 3 [2, 0, 1])[ki]? = some i ∧
        (loopApplyOrder 3 [2, 0, 1])[kj]? = some j :=
  c3_updates_in_initiation_order 3 [2, 0, 1] (by decide)

/-! ## The item lifecycle state machine (C4)

The mutating operations on the shared image list: enqueue (from either
ingestion path, src/unnamed/part_000 lines 70 and 136), a generate-all
invocation's synchronous flip (line 157) which also registers the flipped
ids as in-flight, the asynchronous application of one in-flight result
(line 170), `removeImage` (line 196) and `clearAll` (line 200).
In-flight results survive removal of their item (the promise still
settles), hence the explicit pending-id set. -/

inductive BatchOp
  | enqueue (items : List ProcessedImage)
  | generateAll
  | applyRes (r : GenResult)
  | removeImage (id : Nat)
  | clearAll

/-- The ids of a list of items. -/
def imageIds (l : List ProcessedImage) : List Nat := l.map ProcessedImage.id

/-- The orchestrator's shared state: the image list plus the ids whose
naming request is in flight and not yet applied. -/
structure OrchestratorState where
  images : List ProcessedImage
  pending : List Nat
  deriving DecidableEq, Repr

def stepOp (s : OrchestratorState) : BatchOp → OrchestratorState
  | .enqueue items => ⟨s.images ++ items, s.pending⟩
  | .generateAll => ⟨flipQueued s.images, s.pending ++ imageIds (queuedSnapshot s.images)⟩
  | .applyRes r => ⟨applyResultList s.images r, s.pending.erase r.id⟩
  | .removeImage i => ⟨s.images.filter (fun img => !(img.id == i)), s.pending⟩
  | .clearAll => ⟨[], s.pending⟩

/-- Well-formedness of one operation against the current state: enqueued
items are queued and carry fresh ids (the program's random/time composite
ids collide with nothing), and a result application belongs to an
in-flight request. -/
def opWF (s : OrchestratorState) : BatchOp → Bool
  | .enqueue items =>
    items.all (fun it => decide (it.status = ImageStatus.queued ∧
      it.id ∉ imageIds s.images ∧ it.id ∉ s.pending)) &&
      decide (imageIds items).Nodup
  | .applyRes r => decide (r.id ∈ s.pending)
  | _ => true

/-- The orchestrator invariant: ids are unique, pending ids are unique,
and an item with an in-flight request is in state generating. -/
def stateInv (s : OrchestratorState) : Prop :=
  (imageIds s.images).Nodup ∧ s.pending.Nodup ∧
    ∀ img ∈ s.images, img.id ∈ s.pending → img.status = .generating

/-- The allowed lifecycle moves of one item between two consecutive
states: unchanged, queued to generating, or generating to a terminal
state. -/
def forwardStatus (a b : ImageStatus) : Prop :=
  b = a ∨ (a = .queued ∧ b = .generating) ∨
    (a = .generating ∧ (b = .completed ∨ b = .error))

def runOps (s : OrchestratorState) : List BatchOp → OrchestratorState
  | [] => s
  | op :: rest => runOps (stepOp s op) rest

def opsWF (s : OrchestratorState) : List BatchOp → Bool
  | [] => true
  | op :: rest => opWF s op && opsWF (stepOp s op) rest

/-- The initial state: empty list, nothing in flight. -/
def initOrchestrator : OrchestratorState := ⟨[], []⟩

theorem imageIds_map_of_preserve (f : ProcessedImage → ProcessedImage)
    (l : List ProcessedImage) (h : ∀ a, (f a).id = a.id) :
    imageIds (l.map f) = imageIds l := by
  induction l with
  | nil => rfl
  | cons a rest ih =>
    rw [List.map_cons, imageIds, List.map_cons, h a]
    rw [imageIds] at ih
    rw [ih]
    rfl

theorem flip_preserves_id (a : ProcessedImage) : (flipItem a).id = a.id := by
  rw [flipItem]
  by_cases h : (a.status == ImageStatus.queued) = true
  · rw [if_pos h]
  · rw [if_neg h]

theorem resultUpdate_id (im : ProcessedImage) (r : GenResult) :
    (resultUpdate im r).id = im.id := by
  cases ho : r.outcome <;> simp [resultUpdate, ho]

theorem applyItem_preserves_id (r : GenResult) (a : ProcessedImage) :
    (applyItem r a).id = a.id := by
  rw [applyItem]
  by_cases h : (a.id == r.id) = true
  · rw [if_pos h, resultUpdate_id]
  · rw [if_neg h]

theorem imageIds_flipQueued (l : List ProcessedImage) :
    imageIds (flipQueued l) = imageIds l :=
  imageIds_map_of_preserve _ l flip_preserves_id

theorem imageIds_applyResultList (l : List ProcessedImage) (r : GenResult) :
    imageIds (applyResultList l r) = imageIds l :=
  imageIds_map_of_preserve _ l (applyItem_preserves_id r)

theorem id_unique (l : List ProcessedImage) (h : (imageIds l).Nodup)
    (a b : ProcessedImage) (ha : a ∈ l) (hb : b ∈ l) (hid : a.id = b.id) : a = b := by
  obtain ⟨i, hi, hia⟩ := List.getElem_of_mem ha
  obtain ⟨j, hj, hjb⟩ := List.getElem_of_mem hb
  have hia2 : l[i]? = some a := List.getElem?_eq_some_iff.mpr ⟨hi, hia⟩
  have hjb2 : l[j]? = some b := List.getElem?_eq_some_iff.mpr ⟨hj, hjb⟩
  have h1 : (imageIds l)[i]? = some a.id := by
    rw [imageIds, List.getElem?_map, hia2, Option.map_some']
  have h2 : (imageIds l)[j]? = some a.id := by
    rw [imageIds, List.getElem?_map, hjb2, Option.map_some', hid]
  have hij : i = j := nodup_getElem_inj _ h i j a.id h1 h2
  subst hij
  rw [← hia, ← hjb]

theorem imageIds_append (l1 l2 : List ProcessedImage) :
    imageIds (l1 ++ l2) = imageIds l1 ++ imageIds l2 := by
  rw [imageIds, List.map_append]
  rfl

theorem stepOp_inv (s : OrchestratorState) (op : BatchOp)
    (hinv : stateInv s) (hwf : opWF s op = true) : stateInv (stepOp s op) := by
  obtain ⟨hids, hpend, hgen⟩ := hinv
  cases op with
  | enqueue items =>
    simp only [opWF, Bool.and_eq_true, List.all_eq_true, decide_eq_true_eq] at hwf
    obtain ⟨hall, hitems⟩ := hwf
    refine ⟨?_, hpend, ?_⟩
    · show (imageIds (s.images ++ items)).Nodup
      rw [imageIds_append]
      apply List.Nodup.append hids hitems
      intro x hx1 hx2
      rw [imageIds, List.mem_map] at hx2
      obtain ⟨b, hb, hbid⟩ := hx2
      exact ((hall b hb).2.1) (hbid ▸ hx1)
    · intro img hmem hidp
      rcases List.mem_append.mp hmem with hm | hm
      · exact hgen img hm hidp
      · exact absurd hidp ((hall img hm).2.2)
  | generateAll =>
    refine ⟨?_, ?_, ?_⟩
    · show (imageIds (flipQueued s.images)).Nodup
      rw [imageIds_flipQueued]
      exact hids
    · show (s.pending ++ imageIds (queuedSnapshot s.images)).Nodup
      apply List.Nodup.append hpend
      · have hsub : List.Sublist (imageIds (queuedSnapshot s.images)) (imageIds s.images) :=
          List.Sublist.map _ (List.filter_sublist _)
        exact List.Nodup.sublist hsub hids
      · intro x hx1 hx2
        rw [imageIds, List.mem_map] at hx2
        obtain ⟨b, hb, hbid⟩ := hx2
        rw [queuedSnapshot, List.mem_filter] at hb
        have hbq : b.status = .queued := by simpa using hb.2
        have hbg := hgen b hb.1 (hbid ▸ hx1)
        rw [hbg] at hbq
        exact ImageStatus.noConfusion hbq
    · intro img hmem hidp
      obtain ⟨a, ha, hfa⟩ := List.mem_map.mp hmem
      have haid : img.id = a.id := by
        rw [← hfa]
        exact flip_preserves_id a
      rcases List.mem_append.mp hidp with hp | hp
      · have hagen : a.status = .generating := hgen a ha (haid ▸ hp)
        have hne : (a.status == ImageStatus.queued) = false := by
          rw [hagen]
          rfl
        rw [← hfa, flipItem, if_neg (by simp [hne])]
        exact hagen
      · rw [imageIds, List.mem_map] at hp
        obtain ⟨b, hb, hbid⟩ := hp
        rw [queuedSnapshot, List.mem_filter] at hb
        have hba : b = a := id_unique s.images hids b a hb.1 ha (by rw [hbid, haid])
        have haq : a.status = .queued := by
          rw [← hba]
          simpa using hb.2
        rw [← hfa, flipItem, if_pos (by simp [haq])]
  | applyRes r =>
    simp only [opWF, decide_eq_true_eq] at hwf
    refine ⟨?_, List.Nodup.erase _ hpend, ?_⟩
    · show (imageIds (applyResultList s.images r)).Nodup
      rw [imageIds_applyResultList]
      exact hids
    · intro img hmem hidp
      obtain ⟨a, ha, hfa⟩ := List.mem_map.mp hmem
      have haid : img.id = a.id := by
        rw [← hfa]
        exact applyItem_preserves_id r a
      have hmem2 := (List.Nodup.mem_erase_iff hpend).mp hidp
      have hane : (a.id == r.id) = false := by
        have : a.id ≠ r.id := by
          rw [← haid]
          exact hmem2.1
        simp [this]
      rw [← hfa, applyItem, if_neg (by simp [hane])]
      exact hgen a ha (haid ▸ hmem2.2)
  | removeImage i =>
    refine ⟨?_, hpend, ?_⟩
    · show (imageIds (s.images.filter _)).Nodup
      have hsub : List.Sublist (imageIds (s.images.filter fun img => !(img.id == i)))
          (imageIds s.images) :=
        List.Sublist.map _ (List.filter_sublist _)
      exact List.Nodup.sublist hsub hids
    · intro img hmem hidp
      exact hgen img (List.mem_of_mem_filter hmem) hidp
  | clearAll =>
    refine ⟨?_, hpend, ?_⟩
    · show (imageIds ([] : List ProcessedImage)).Nodup
      simp [imageIds]
    · intro img hmem
      cases hmem

theorem stepOp_status (s : OrchestratorState) (op : BatchOp)
    (hinv : stateInv s) (hwf : opWF s op = true)
    (img img' : ProcessedImage)
    (h1 : img ∈ s.images) (h2 : img' ∈ (stepOp s op).images)
    (hid : img.id = img'.id) :
    forwardStatus img.status img'.status := by
  obtain ⟨hids, hpend, hgen⟩ := hinv
  cases op with
  | enqueue items =>
    simp only [opWF, Bool.and_eq_true, List.all_eq_true, decide_eq_true_eq] at hwf
    obtain ⟨hall, hitems⟩ := hwf
    rcases List.mem_append.mp h2 with h2a | h2b
    · have heq := id_unique s.images hids img img' h1 h2a hid
      left
      rw [heq]
    · exfalso
      apply (hall img' h2b).2.1
      rw [imageIds, List.mem_map]
      exact ⟨img, h1, hid⟩
  | generateAll =>
    obtain ⟨a, ha, hfa⟩ := List.mem_map.mp h2
    have haid : a.id = img.id := by
      rw [hid, ← hfa]
      exact (flip_preserves_id a).symm
    have heq : a = img := id_unique s.images hids a img ha h1 haid
    subst heq
    by_cases hq : a.status = ImageStatus.queued
    · right
      left
      refine ⟨hq, ?_⟩
      rw [← hfa, flipItem, if_pos (by simp [hq])]
    · left
      rw [← hfa, flipItem, if_neg (by simp [hq])]
  | applyRes r =>
    simp only [opWF, decide_eq_true_eq] at hwf
    obtain ⟨a, ha, hfa⟩ := List.mem_map.mp h2
    have haid : a.id = img.id := by
      rw [hid, ← hfa]
      exact (applyItem_preserves_id r a).symm
    have heq : a = img := id_unique s.images hids a img ha h1 haid
    subst heq
    by_cases hr : a.id = r.id
    · have hagen : a.status = .generating := hgen a ha (by rw [hr]; exact hwf)
      right
      right
      refine ⟨hagen, ?_⟩
      rw [← hfa, applyItem, if_pos (by simp [hr])]
      cases ho : r.outcome with
      | ok n =>
        left
        simp [resultUpdate, ho]
      | error e =>
        right
        simp [resultUpdate, ho]
    · left
      rw [← hfa, applyItem, if_neg (by simp [hr])]
  | removeImage i =>
    have h2b : img' ∈ s.images := List.mem_of_mem_filter h2
    have heq := id_unique s.images hids img img' h1 h2b hid
    left
    rw [heq]
  | clearAll =>
    cases h2

theorem runOps_append (l1 l2 : List BatchOp) :
    ∀ s : OrchestratorState, runOps s (l1 ++ l2) = runOps (runOps s l1) l2 := by
  induction l1 with
  | nil => intro s; rfl
  | cons o rest ih =>
    intro s
    rw [List.cons_append, runOps, runOps]
    exact ih (stepOp s o)

theorem runOps_inv (l : List BatchOp) :
    ∀ s : OrchestratorState, stateInv s → opsWF s l = true → stateInv (runOps s l) := by
  induction l with
  | nil => intro s hs _; exact hs
  | cons o rest ih =>
    intro s hs hwf
    rw [opsWF, Bool.and_eq_true] at hwf
    exact ih (stepOp s o) (stepOp_inv s o hs hwf.1) hwf.2

theorem opsWF_take (l : List BatchOp) :
    ∀ (s : OrchestratorState) (k : Nat), opsWF s l = true → opsWF s (l.take k) = true := by
  induction l with
  | nil => intro s k _; rw [List.take_nil]; rfl
  | cons o rest ih =>
    intro s k hwf
    rw [opsWF, Bool.and_eq_true] at hwf
    cases k with
    | zero => rfl
    | succ j =>
      rw [List.take_succ_cons, opsWF, Bool.and_eq_true]
      exact ⟨hwf.1, ih (stepOp s o) j hwf.2⟩

theorem opsWF_get (l : List BatchOp) :
    ∀ (s : OrchestratorState) (k : Nat) (op : BatchOp), opsWF s l = true →
      l[k]? = some op → opWF (runOps s (l.take k)) op = true := by
  induction l with
  | nil => intro s k op _ hk; cases hk
  | cons o rest ih =>
    intro s k op hwf hk
    rw [opsWF, Bool.and_eq_true] at hwf
    cases k with
    | zero =>
      rw [List.getElem?_cons_zero] at hk
      injection hk with h2
      subst h2
      exact hwf.1
    | succ j =>
      rw [List.getElem?_cons_succ] at hk
      rw [List.take_succ_cons, runOps]
      exact ih (stepOp s o) j op hwf.2 hk

theorem initOrchestrator_inv : stateInv initOrchestrator := by
  refine ⟨by simp [initOrchestrator, imageIds], by simp [initOrchestrator], ?_⟩
  intro img hmem
  cases hmem

/-- C4: along any well-formed sequence of operations (enqueue with fresh
ids, generate-all, in-flight result application, remove, clear) starting
from the empty state, an item present before and after any one step only
ever keeps its status or moves queued to generating or generating to a
terminal completed/error state; no other transition (in particular no
backward one) ever occurs while the item remains in the list. -/
theorem c4_status_forward_only (ops : List BatchOp)
    (h : opsWF initOrchestrator ops = true) (k : Nat)
    (img img' : ProcessedImage)
    (h1 : img ∈ (runOps initOrchestrator (ops.take k)).images)
    (h2 : img' ∈ (runOps initOrchestrator (ops.take (k + 1))).images)
    (hid : img.id = img'.id) :
    forwardStatus img.status img'.status := by
  have hinvk : stateInv (runOps initOrchestrator (ops.take k)) :=
    runOps_inv _ _ initOrchestrator_inv (opsWF_take ops initOrchestrator k h)
  cases hop : ops[k]? with
  | none =>
    have htk : ops.take (k + 1) = ops.take k := by
      rw [List.take_succ, hop]
      simp
    rw [htk] at h2
    have heq := id_unique _ hinvk.1 img img' h1 h2 hid
    left
    rw [heq]
  | some op =>
    have htk : ops.take (k + 1) = ops.take k ++ [op] := by
      rw [List.take_succ, hop]
      rfl
    rw [htk, runOps_append] at h2
    have hwfk := opsWF_get ops initOrchestrator k op h hop
    exact stepOp_status _ op hinvk hwfk img img' h1 h2 hid

/-- Witness for C4: enqueue one fresh queued item, then generate-all; the
step from the first to the second state moves the item from queued to
generating. -/
theorem c4_status_forward_only_witness :
    forwardStatus itemQ1.status (flipItem itemQ1).status :=
  c4_status_forward_only [.enqueue [itemQ1], .generateAll] (by decide) 1
    itemQ1 (flipItem itemQ1) (by decide) (by decide) (by decide)
